import Mathlib

/-
  Verification of the apt-cyg-clean package-cache pruner.

  The source is a small Python program (apt-cyg-clean.py).  The definitions
  below are a shallow embedding of its pure core:

  * `cygpackage`   — the filename parser (Python `cygpackage`),
  * `chkversion` / `chkrelease` / `chkpackage` — the validators,
  * `packname`     — filename reconstruction,
  * `select`       — the sort-and-pop selection inside Python `clean`,
  * `clean`        — the per-directory removal-set builder,
  * `pruneTrash` / `prune` — the per-directory orchestration (Python `prune`),
  * `ispackdir`    — the directory classifier.

  Python strings are modelled as Lean `String` (the inputs of interest are
  ASCII, where Python 2 byte-wise comparison coincides with comparison of
  unicode code points).  Python's `list.sort` (a stable sort) is modelled by
  `List.insertionSort`, which is stable and produces the same result for a
  total preorder.  The `trash` dict of `clean` is modelled as an association
  list (its keys are distinct in every reachable call, so no entry is ever
  overwritten).  `re.match(r'^...$', s)` is modelled including Python's
  documented behaviour that `$` also matches just before a single trailing
  newline at the end of the string.
-/

namespace AptCyg

/-- The package identity, Python's `CygPackage` namedtuple.  The Python
`INVALID_PACKAGE` sentinel is modelled by `Option.none` at use sites
(`cygpackage` returns `Option CygPackage`). -/
structure CygPackage where
  package : String
  version : String
  release : String
deriving DecidableEq, Repr

/-- Python: `SUFFIX = ".tar.bz2"`. -/
def SUFFIX : String := ".tar.bz2"

/-- Python `s.endswith(suffix)`. -/
def pyEndsWith (s suffix : String) : Bool :=
  suffix.data.isSuffixOf s.data

/-- Split a character list at its last `'-'`: `some (before, after)` when a
hyphen occurs, `none` otherwise.  Helper for Python's `rsplit`. -/
def breakLastHyphen : List Char → Option (List Char × List Char)
  | [] => none
  | c :: cs =>
    match breakLastHyphen cs with
    | some (a, b) => some (c :: a, b)
    | none => if c = '-' then some ([], cs) else none

/-- Python `p.rsplit("-", 2)`: split from the right at most twice. -/
def rsplit2 (s : String) : List String :=
  match breakLastHyphen s.data with
  | none => [s]
  | some (l1, r1) =>
    match breakLastHyphen l1 with
    | none => [String.mk l1, String.mk r1]
    | some (l2, r2) => [String.mk l2, String.mk r2, String.mk r1]

/-- The language of the regex body `\d[0-9\.]*`, anchored on the whole list:
one digit, then digits or dots. -/
def matchVersion : List Char → Bool
  | [] => false
  | c :: cs => c.isDigit && cs.all fun d => d.isDigit || d == '.'

/-- The language of the regex body `[1-9]\d*`, anchored on the whole list:
one non-zero digit, then digits. -/
def matchRelease : List Char → Bool
  | [] => false
  | c :: cs => (c.isDigit && !(c == '0')) && cs.all fun d => d.isDigit

/-- `re.match(r'^B$', s)` for a body language `m`: Python's `$` matches at the
end of the string or just before a newline that ends the string. -/
def pyDollar (m : List Char → Bool) (l : List Char) : Bool :=
  m l ||
    (match l.getLast? with
     | some c => c == '\n' && m l.dropLast
     | none => false)

/-- Python `chkversion`: `re.match(r'^\d[0-9\.]*$', ver)`. -/
def chkversion (s : String) : Bool :=
  pyDollar matchVersion s.data

/-- Python `chkrelease`: `re.match(r'^[1-9]\d*$', rel)`. -/
def chkrelease (s : String) : Bool :=
  pyDollar matchRelease s.data

/-- Python `chkpackage`: three parts, valid version, valid release. -/
def chkpackage (parts : List String) : Bool :=
  match parts with
  | [_, v, r] => chkversion v && chkrelease r
  | _ => false

/-- Python `cygpackage`: parse a filename into a package identity, `none`
standing for `INVALID_PACKAGE`. -/
def cygpackage (s : String) : Option CygPackage :=
  if pyEndsWith s SUFFIX then
    let p := String.mk (s.data.take (s.data.length - SUFFIX.data.length))
    let pack := rsplit2 p
    if chkpackage pack then
      match pack with
      | [a, b, c] => some ⟨a, b, c⟩
      | _ => none
    else none
  else none

/-- Python `packname`: reconstruct the filename; the invalid sentinel maps to
the empty string. -/
def packname : Option CygPackage → String
  | none => ""
  | some p => p.package ++ "-" ++ p.version ++ "-" ++ p.release ++ SUFFIX

/-- Python `ispackfile`. -/
def ispackfile (s : String) : Bool :=
  (cygpackage s).isSome

/-- Python `ispackdir` (restricted to its only used argument). -/
def ispackdir (files : List String) : Bool :=
  files.any fun s => ispackfile s

/-- The sort key of Python `clean`: `p.version + "-" + p.release`. -/
def pkgkey (p : CygPackage) : String :=
  p.version ++ "-" ++ p.release

/-- Strict lexicographic comparison of character lists, as Python compares
strings. -/
def strLtAux : List Char → List Char → Bool
  | _, [] => false
  | [], _ :: _ => true
  | a :: as, b :: bs => if a < b then true else if b < a then false else strLtAux as bs

/-- `a < b` on strings, byte-wise lexicographic as in Python 2. -/
def strLt (a b : String) : Bool :=
  strLtAux a.data b.data

/-- `a ≤ b` on strings. -/
def strLe (a b : String) : Bool :=
  !(strLt b a)

/-- Ordering of identities used by Python `vs.sort(key=lambda p: p.version+"-"+p.release)`. -/
def keyLe (p q : CygPackage) : Prop :=
  strLe (pkgkey p) (pkgkey q) = true

/-- Ordering of identities used by Python `packages.sort(key=lambda p: p.package)`. -/
def nameLe (p q : CygPackage) : Prop :=
  strLe p.package q.package = true

instance : DecidableRel keyLe := fun _ _ => instDecidableEqBool _ _

instance : DecidableRel nameLe := fun _ _ => instDecidableEqBool _ _

/-- The selection step inside Python `clean`: sort the group by key and pop
the last element; `none` models the `IndexError` an empty group would raise. -/
def select (vs : List CygPackage) : Option (CygPackage × List CygPackage) :=
  let sorted := List.insertionSort keyLe vs
  match sorted.getLast? with
  | none => none
  | some p => some (p, sorted.dropLast)

/-- `os.path.join` for POSIX paths, two arguments. -/
def posixJoin (a b : String) : String :=
  if b.data.head? = some '/' then b
  else if a = "" then b
  else if a.data.getLast? = some '/' then a ++ b
  else a ++ "/" ++ b

/-- Python `clean`: build the removal set (the `trash` dict, modelled as an
association list) from the name groups of one directory. -/
def clean (root : String) (pks : List (List CygPackage)) : List (CygPackage × List String) :=
  pks.filterMap fun vs =>
    match select vs with
    | none => none
    | some (p, ds) =>
      if ds = [] then none
      else some (p, ds.map fun v => posixJoin root (packname (some v)))

/-- `itertools.groupby` by package name (contiguous runs of equal names),
as applied in Python `prune` after sorting by name. -/
def groupPackages : List CygPackage → List (List CygPackage)
  | [] => []
  | p :: ps =>
    match groupPackages ps with
    | (q :: qs) :: gs =>
      if p.package = q.package then (p :: q :: qs) :: gs
      else [p] :: (q :: qs) :: gs
    | gs => [p] :: gs

/-- Python `prune` up to the call to `rmtrash`: the removal set of one
directory.  The early `return` on a single valid package file yields the
empty removal set. -/
def pruneTrash (root : String) (files : List String) : List (CygPackage × List String) :=
  let pfiles := files.filter fun f => ispackfile f
  if pfiles.length = 1 then []
  else
    clean root (groupPackages (List.insertionSort nameLe (pfiles.filterMap cygpackage)))

/-- All paths Python `rmtrash` passes to `os.remove` for one directory. -/
def prune (root : String) (files : List String) : List String :=
  ((pruneTrash root files).map fun e => e.2).flatten

/-- The version grammar in the spec's words: non-empty, first character a
digit, every subsequent character a digit or a dot. -/
def versionSpec (s : String) : Bool :=
  match s.data with
  | [] => false
  | c :: cs => c.isDigit && cs.all fun d => d.isDigit || d == '.'

/-- The release grammar in the spec's words: one non-zero digit followed by
zero or more digits. -/
def releaseSpec (s : String) : Bool :=
  match s.data with
  | [] => false
  | c :: cs => (c.isDigit && !(c == '0')) && cs.all fun d => d.isDigit

/-! Order lemmas for the byte-wise string comparison. -/

theorem strLtAux_irrefl : ∀ l : List Char, strLtAux l l = false
  | [] => rfl
  | c :: cs => by
    simp [strLtAux, lt_irrefl, strLtAux_irrefl cs]

theorem strLtAux_trans : ∀ {a b c : List Char},
    strLtAux a b = true → strLtAux b c = true → strLtAux a c = true
  | _, [], _, h1, _ => by simp [strLtAux] at h1
  | _, _ :: _, [], _, h2 => by simp [strLtAux] at h2
  | [], _ :: _, _ :: _, _, _ => rfl
  | x :: xs, y :: ys, z :: zs, h1, h2 => by
    simp only [strLtAux] at h1 h2 ⊢
    have hstep : x < y ∨ (x = y ∧ strLtAux xs ys = true) := by
      by_cases hxy : x < y
      · exact Or.inl hxy
      · rw [if_neg hxy] at h1
        by_cases hyx : y < x
        · rw [if_pos hyx] at h1; exact absurd h1 (by simp)
        · rw [if_neg hyx] at h1
          exact Or.inr ⟨le_antisymm (not_lt.mp hyx) (not_lt.mp hxy), h1⟩
    have hstep2 : y < z ∨ (y = z ∧ strLtAux ys zs = true) := by
      by_cases hyz : y < z
      · exact Or.inl hyz
      · rw [if_neg hyz] at h2
        by_cases hzy : z < y
        · rw [if_pos hzy] at h2; exact absurd h2 (by simp)
        · rw [if_neg hzy] at h2
          exact Or.inr ⟨le_antisymm (not_lt.mp hzy) (not_lt.mp hyz), h2⟩
    rcases hstep with hxy | ⟨hxy, hrec1⟩
    · rcases hstep2 with hyz | ⟨hyz, _⟩
      · rw [if_pos (lt_trans hxy hyz)]
      · rw [if_pos (show x < z by rw [← hyz]; exact hxy)]
    · rcases hstep2 with hyz | ⟨hyz, hrec2⟩
      · rw [if_pos (show x < z by rw [hxy]; exact hyz)]
      · have hxz : x = z := hxy.trans hyz
        rw [← hxz]
        rw [if_neg (lt_irrefl x), if_neg (lt_irrefl x)]
        exact strLtAux_trans hrec1 hrec2

theorem strLtAux_eq_of_not : ∀ {a b : List Char},
    strLtAux a b = false → strLtAux b a = false → a = b
  | [], [], _, _ => rfl
  | [], _ :: _, h1, _ => by simp [strLtAux] at h1
  | _ :: _, [], _, h2 => by simp [strLtAux] at h2
  | x :: xs, y :: ys, h1, h2 => by
    simp only [strLtAux] at h1 h2
    rcases lt_trichotomy x y with hxy | hxy | hxy
    · simp [hxy] at h1
    · subst hxy
      simp only [lt_irrefl, if_false] at h1 h2
      exact congrArg (x :: ·) (strLtAux_eq_of_not h1 h2)
    · simp [hxy] at h2

theorem strLe_refl (a : String) : strLe a a = true := by
  simp [strLe, strLt, strLtAux_irrefl]

theorem strLe_total (a b : String) : strLe a b = true ∨ strLe b a = true := by
  simp only [strLe, strLt, Bool.not_eq_true']
  rcases h1 : strLtAux b.data a.data with _ | _
  · exact Or.inl rfl
  · rcases h2 : strLtAux a.data b.data with _ | _
    · exact Or.inr rfl
    · have := strLtAux_trans h1 h2
      rw [strLtAux_irrefl] at this
      exact absurd this (by simp)

theorem strLe_trans {a b c : String} (h1 : strLe a b = true) (h2 : strLe b c = true) :
    strLe a c = true := by
  simp only [strLe, strLt, Bool.not_eq_true'] at h1 h2 ⊢
  rcases hca : strLtAux c.data a.data with _ | _
  · rfl
  · exfalso
    rcases hbc : strLtAux b.data c.data with _ | _
    · have hbceq : b.data = c.data := strLtAux_eq_of_not hbc h2
      rw [hbceq, hca] at h1
      exact Bool.noConfusion h1
    · have h' := strLtAux_trans hbc hca
      rw [h'] at h1
      exact Bool.noConfusion h1

theorem strLt_of_le_ne {a b : String} (h : strLe a b = true) (hne : a ≠ b) :
    strLt a b = true := by
  rcases hab : strLtAux a.data b.data with _ | _
  · exfalso
    apply hne
    apply String.ext
    apply strLtAux_eq_of_not hab
    simp only [strLe, strLt, Bool.not_eq_true'] at h
    exact h
  · exact hab

instance : IsRefl CygPackage keyLe := ⟨fun p => strLe_refl (pkgkey p)⟩

instance : IsTotal CygPackage keyLe := ⟨fun p q => strLe_total (pkgkey p) (pkgkey q)⟩

instance : IsTrans CygPackage keyLe := ⟨fun _ _ _ => strLe_trans⟩

instance : IsRefl CygPackage nameLe := ⟨fun p => strLe_refl p.package⟩

instance : IsTotal CygPackage nameLe := ⟨fun p q => strLe_total p.package q.package⟩

instance : IsTrans CygPackage nameLe := ⟨fun _ _ _ => strLe_trans⟩

/-- In a list sorted by a reflexive relation, every member is related to the
last element. -/
theorem rel_getLast_of_sorted {α : Type} {r : α → α → Prop} [IsRefl α r] :
    ∀ {l : List α}, l.Sorted r → ∀ {x z : α}, x ∈ l → z ∈ l.getLast? → r x z := by
  intro l
  induction l with
  | nil => intro _ x z hx _; exact absurd hx (List.not_mem_nil x)
  | cons y ys ih =>
    intro hs x z hx hz
    cases ys with
    | nil =>
      simp only [List.getLast?_singleton, Option.mem_def, Option.some.injEq] at hz
      simp only [List.mem_singleton] at hx
      subst hz; subst hx
      exact refl_of r x
    | cons w ws =>
      have hz' : z ∈ (w :: ws).getLast? := by
        simpa [List.getLast?] using hz
      rcases List.mem_cons.mp hx with hxy | hxtail
      · subst hxy
        have hzmem : z ∈ w :: ws := by
          rcases List.mem_getLast?_eq_getLast hz' with ⟨hne, hzeq⟩
          exact hzeq ▸ List.getLast_mem hne
        exact (List.sorted_cons.mp hs).1 z hzmem
      · exact ih (List.sorted_cons.mp hs).2 hxtail hz'

/-! Lemmas about the regex models. -/

theorem pyDollar_iff (m : List Char → Bool) (l : List Char) :
    pyDollar m l = true ↔
      m l = true ∨ (l.getLast? = some '\n' ∧ m l.dropLast = true) := by
  unfold pyDollar
  rcases hL : l.getLast? with _ | c
  · simp
  · simp only [Bool.or_eq_true, Bool.and_eq_true, beq_iff_eq, Option.some.injEq]

theorem matchVersion_no_hyphen {l : List Char} (h : matchVersion l = true) :
    ('-' : Char) ∉ l := by
  intro hmem
  cases l with
  | nil => exact absurd hmem (List.not_mem_nil _)
  | cons c cs =>
    simp only [matchVersion, Bool.and_eq_true, List.all_eq_true] at h
    rcases List.mem_cons.mp hmem with hc | hcs
    · rw [← hc] at h
      exact absurd h.1 (by decide)
    · have := h.2 '-' hcs
      exact absurd this (by decide)

theorem matchRelease_no_hyphen {l : List Char} (h : matchRelease l = true) :
    ('-' : Char) ∉ l := by
  intro hmem
  cases l with
  | nil => exact absurd hmem (List.not_mem_nil _)
  | cons c cs =>
    simp only [matchRelease, Bool.and_eq_true, List.all_eq_true] at h
    rcases List.mem_cons.mp hmem with hc | hcs
    · rw [← hc] at h
      exact absurd h.1.1 (by decide)
    · have := h.2 '-' hcs
      exact absurd this (by decide)

theorem pyDollar_no_hyphen {m : List Char → Bool}
    (hm : ∀ l, m l = true → ('-' : Char) ∉ l) {l : List Char}
    (h : pyDollar m l = true) : ('-' : Char) ∉ l := by
  rcases (pyDollar_iff m l).mp h with hcore | ⟨hL, hcore⟩
  · exact hm l hcore
  · intro hmem
    have hrecon : l.dropLast ++ ['\n'] = l :=
      List.dropLast_append_getLast? '\n' (Option.mem_def.mpr hL)
    rw [← hrecon] at hmem
    rcases List.mem_append.mp hmem with hin | hin
    · exact hm _ hcore hin
    · rw [List.mem_singleton] at hin
      exact absurd hin (by decide)

theorem chkversion_no_hyphen {v : String} (h : chkversion v = true) :
    ('-' : Char) ∉ v.data :=
  pyDollar_no_hyphen (fun _ => matchVersion_no_hyphen) h

theorem chkrelease_no_hyphen {r : String} (h : chkrelease r = true) :
    ('-' : Char) ∉ r.data :=
  pyDollar_no_hyphen (fun _ => matchRelease_no_hyphen) h

/-! Lemmas about the right-split. -/

theorem breakLastHyphen_eq_none {l : List Char} (h : ('-' : Char) ∉ l) :
    breakLastHyphen l = none := by
  induction l with
  | nil => rfl
  | cons c cs ih =>
    have hc : c ≠ '-' := fun hc => h (hc ▸ List.mem_cons_self c cs)
    have hcs : ('-' : Char) ∉ cs := fun hin => h (List.mem_cons_of_mem c hin)
    simp only [breakLastHyphen, ih hcs]
    exact if_neg hc

theorem breakLastHyphen_append {a b : List Char} (h : ('-' : Char) ∉ b) :
    breakLastHyphen (a ++ '-' :: b) = some (a, b) := by
  induction a with
  | nil =>
    simp [breakLastHyphen, breakLastHyphen_eq_none h]
  | cons x xs ih =>
    simp [breakLastHyphen, ih]

theorem breakLastHyphen_recon : ∀ {l x y : List Char},
    breakLastHyphen l = some (x, y) → l = x ++ '-' :: y := by
  intro l
  induction l with
  | nil => intro x y h; exact absurd h (by simp [breakLastHyphen])
  | cons c cs ih =>
    intro x y h
    simp only [breakLastHyphen] at h
    rcases hb : breakLastHyphen cs with _ | ⟨a, b⟩
    · rw [hb] at h
      by_cases hc : c = '-'
      · rw [if_pos hc] at h
        obtain ⟨hx, hy⟩ := Prod.mk.injEq .. ▸ (Option.some.injEq _ _ ▸ h)
        subst hc; rw [← hx, ← hy]; rfl
      · rw [if_neg hc] at h
        exact absurd h (by simp)
    · rw [hb] at h
      obtain ⟨hx, hy⟩ := Prod.mk.injEq .. ▸ (Option.some.injEq _ _ ▸ h)
      have := ih hb
      rw [← hx, ← hy, this]
      rfl

theorem data_mk (l : List Char) : (String.mk l).data = l := rfl

theorem rsplit2_three {a b c : List Char} (hb : ('-' : Char) ∉ b)
    (hc : ('-' : Char) ∉ c) :
    rsplit2 (String.mk (a ++ '-' :: (b ++ '-' :: c)))
      = [String.mk a, String.mk b, String.mk c] := by
  have key : breakLastHyphen (a ++ '-' :: (b ++ '-' :: c)) = some (a ++ '-' :: b, c) := by
    have hassoc : a ++ '-' :: (b ++ '-' :: c) = (a ++ '-' :: b) ++ '-' :: c := by
      simp [List.append_assoc]
    rw [hassoc]
    exact breakLastHyphen_append hc
  simp only [rsplit2, data_mk, key, breakLastHyphen_append hb]

theorem rsplit2_recon {s : String} {a b c : String}
    (h : rsplit2 s = [a, b, c]) :
    s.data = a.data ++ '-' :: (b.data ++ '-' :: c.data) := by
  rcases hb1 : breakLastHyphen s.data with _ | ⟨l1, r1⟩
  · simp only [rsplit2, hb1] at h
    simp at h
  · simp only [rsplit2, hb1] at h
    rcases hb2 : breakLastHyphen l1 with _ | ⟨l2, r2⟩
    · simp only [hb2] at h
      simp at h
    · simp only [hb2, List.cons.injEq, and_true] at h
      obtain ⟨ha, hbv, hcv⟩ := h
      have h1 := breakLastHyphen_recon hb1
      have h2 := breakLastHyphen_recon hb2
      rw [h1, h2, ← ha, ← hbv, ← hcv]
      simp [List.append_assoc, data_mk]

theorem mk_data (s : String) : String.mk s.data = s := rfl

/-- Inversion of a successful parse: the filename ends in the suffix, the
right-split of the stem is exactly the three fields, and both validators
accepted. -/
theorem cygpackage_some_elim {s : String} {p : CygPackage} (h : cygpackage s = some p) :
    pyEndsWith s SUFFIX = true ∧
    rsplit2 (String.mk (s.data.take (s.data.length - SUFFIX.data.length)))
      = [p.package, p.version, p.release] ∧
    chkversion p.version = true ∧ chkrelease p.release = true := by
  by_cases hE : pyEndsWith s SUFFIX = true
  · refine ⟨hE, ?_⟩
    simp only [cygpackage, hE, if_true] at h
    rcases hP : rsplit2 (String.mk (s.data.take (s.data.length - SUFFIX.data.length)))
      with _ | ⟨a, _ | ⟨b, _ | ⟨c, _ | ⟨d, rest⟩⟩⟩⟩
    · rw [hP] at h; simp [chkpackage] at h
    · rw [hP] at h; simp [chkpackage] at h
    · rw [hP] at h; simp [chkpackage] at h
    · rw [hP] at h
      simp only [chkpackage] at h
      rcases hC : chkversion b && chkrelease c with _ | _
      · rw [hC] at h; simp at h
      · rw [hC] at h
        simp only [if_true] at h
        have hp : CygPackage.mk a b c = p := by
          simpa using h
        obtain ⟨h1, h2⟩ : chkversion b = true ∧ chkrelease c = true := by simpa using hC
        rw [← hp]
        exact ⟨rfl, h1, h2⟩
    · rw [hP] at h; simp [chkpackage] at h
  · simp only [cygpackage, if_neg hE] at h
    exact absurd h (by simp)

/-- Printing inverts parsing: a filename that parses reconstructs to itself. -/
theorem packname_of_cygpackage {f : String} {p : CygPackage} (h : cygpackage f = some p) :
    packname (some p) = f := by
  obtain ⟨hE, hsplit, _, _⟩ := cygpackage_some_elim h
  have hsuffix : SUFFIX.data <:+ f.data := by
    unfold pyEndsWith at hE
    exact List.isSuffixOf_iff_suffix.mp hE
  obtain ⟨front, hfront⟩ := hsuffix
  have hlen : f.data.length - SUFFIX.data.length = front.length := by
    rw [← hfront, List.length_append, Nat.add_sub_cancel]
  have htake : f.data.take (f.data.length - SUFFIX.data.length) = front := by
    rw [hlen, ← hfront]
    exact List.take_left front SUFFIX.data
  rw [htake] at hsplit
  have hdata := rsplit2_recon hsplit
  rw [data_mk] at hdata
  apply String.ext
  have hdash : ("-" : String).data = ['-'] := rfl
  simp only [packname, String.data_append, hdash]
  rw [← hfront, hdata]
  simp [List.append_assoc]

/-- Parsing inverts printing: a wellformed identity round-trips through its
canonical filename. -/
theorem cygpackage_packname {p : CygPackage} (hv : chkversion p.version = true)
    (hr : chkrelease p.release = true) : cygpackage (packname (some p)) = some p := by
  have hvb := chkversion_no_hyphen hv
  have hrb := chkrelease_no_hyphen hr
  have hdash : ("-" : String).data = ['-'] := rfl
  have hdata : (packname (some p)).data
      = (p.package.data ++ '-' :: (p.version.data ++ '-' :: p.release.data)) ++ SUFFIX.data := by
    simp [packname, String.data_append, hdash, List.append_assoc]
  have hE : pyEndsWith (packname (some p)) SUFFIX = true := by
    unfold pyEndsWith
    rw [hdata]
    exact List.isSuffixOf_iff_suffix.mpr ⟨_, rfl⟩
  have htake : (packname (some p)).data.take
      ((packname (some p)).data.length - SUFFIX.data.length)
      = p.package.data ++ '-' :: (p.version.data ++ '-' :: p.release.data) := by
    rw [hdata, List.length_append, Nat.add_sub_cancel]
    exact List.take_left _ SUFFIX.data
  have hsplit : rsplit2 (String.mk
      (p.package.data ++ '-' :: (p.version.data ++ '-' :: p.release.data)))
      = [p.package, p.version, p.release] := by
    have h3 := @rsplit2_three p.package.data p.version.data p.release.data hvb hrb
    rw [mk_data, mk_data, mk_data] at h3
    exact h3
  simp only [cygpackage, hE, if_true, htake, hsplit, chkpackage, hv, hr,
    Bool.and_self, if_true]

/-- C2: a non-Invalid identity whose version and release conform to the
grammars and whose name is non-empty parses back from its canonical filename
to an equal identity, and the Invalid sentinel's canonical filename is the
empty string. -/
theorem claim2_roundtrip (p : CygPackage) (_hname : p.package ≠ "")
    (hv : chkversion p.version = true) (hr : chkrelease p.release = true) :
    cygpackage (packname (some p)) = some p ∧ packname none = "" :=
  ⟨cygpackage_packname hv hr, rfl⟩

theorem claim2_witness :
    (((⟨"libstdc++6", "4.5.3", "3"⟩ : CygPackage).package ≠ "") ∧
      chkversion "4.5.3" = true ∧ chkrelease "3" = true) ∧
    cygpackage (packname (some ⟨"libstdc++6", "4.5.3", "3"⟩))
        = some ⟨"libstdc++6", "4.5.3", "3"⟩ ∧
    packname none = "" :=
  ⟨⟨by decide, by decide, by decide⟩,
    claim2_roundtrip ⟨"libstdc++6", "4.5.3", "3"⟩ (by decide) (by decide) (by decide)⟩

/-- C3 as stated is false: the parser never checks that the name part is
non-empty, so `-1-2.tar.bz2` parses to a non-Invalid identity whose name is
the empty string. -/
theorem claim3_counterexample :
    cygpackage "-1-2.tar.bz2" = some ⟨"", "1", "2"⟩ ∧
    (⟨"", "1", "2"⟩ : CygPackage).package = "" :=
  ⟨by decide, rfl⟩

/-- C3 (amended): every non-Invalid result of the parser has a version
accepted by the version validator and a release accepted by the release
validator; the name, however, may be empty. -/
theorem claim3_amended (s : String) (p : CygPackage) (h : cygpackage s = some p) :
    chkversion p.version = true ∧ chkrelease p.release = true := by
  obtain ⟨_, _, hv, hr⟩ := cygpackage_some_elim h
  exact ⟨hv, hr⟩

theorem claim3_witness :
    cygpackage "foo-1.0-1.tar.bz2" = some ⟨"foo", "1.0", "1"⟩ ∧
    chkversion ("1.0" : String) = true ∧ chkrelease ("1" : String) = true :=
  ⟨by decide, claim3_amended "foo-1.0-1.tar.bz2" ⟨"foo", "1.0", "1"⟩ (by decide)⟩

/-- C4 as stated is false: `re.match(r'^\d[0-9\.]*$', s)` also accepts a
string with one trailing newline, because Python's `$` matches just before a
newline that ends the string; `"1\n"` is accepted by `chkversion` though its
second character is neither a digit nor a dot. -/
theorem claim4_counterexample :
    chkversion "1\n" = true ∧ versionSpec "1\n" = false :=
  ⟨by decide, by decide⟩

/-- C4 (amended): `chkversion s` holds iff `s` is non-empty, starts with a
digit and continues with digits or dots — or `s` is such a string followed by
one trailing newline (an artifact of Python's `$` anchor); the claim's test
vectors behave as stated. -/
theorem claim4_amended :
    (∀ s : String, chkversion s = true ↔
      (versionSpec s = true ∨
        (s.data.getLast? = some '\n' ∧ versionSpec (String.mk s.data.dropLast) = true))) ∧
    chkversion "4.5.3" = true ∧ chkversion "20121212" = true ∧ chkversion "1.3" = true ∧
    chkversion ".3.2" = false ∧ chkversion "3.4.foo" = false := by
  refine ⟨fun s => ?_, by decide, by decide, by decide, by decide, by decide⟩
  have hv : ∀ l : List Char, versionSpec (String.mk l) = matchVersion l := by
    intro l; cases l <;> rfl
  have hvs : versionSpec s = matchVersion s.data := by
    have h := hv s.data
    rwa [mk_data] at h
  show pyDollar matchVersion s.data = true ↔ _
  rw [pyDollar_iff, hvs, hv s.data.dropLast]

/-- C5 as stated is false for the same reason as C4: `"1\n"` is accepted by
`chkrelease` though it contains a non-digit. -/
theorem claim5_counterexample :
    chkrelease "1\n" = true ∧ releaseSpec "1\n" = false :=
  ⟨by decide, by decide⟩

/-- C5 (amended): `chkrelease s` holds iff `s` is one non-zero digit followed
by digits — or such a string followed by one trailing newline (Python's `$`
anchor); the claim's test vectors behave as stated. -/
theorem claim5_amended :
    (∀ s : String, chkrelease s = true ↔
      (releaseSpec s = true ∨
        (s.data.getLast? = some '\n' ∧ releaseSpec (String.mk s.data.dropLast) = true))) ∧
    chkrelease "1" = true ∧ chkrelease "7" = true ∧ chkrelease "100" = true ∧
    chkrelease "0" = false ∧ chkrelease "01" = false ∧ chkrelease "quux" = false := by
  refine ⟨fun s => ?_, by decide, by decide, by decide, by decide, by decide, by decide⟩
  have hr : ∀ l : List Char, releaseSpec (String.mk l) = matchRelease l := by
    intro l; cases l <;> rfl
  have hrs : releaseSpec s = matchRelease s.data := by
    have h := hr s.data
    rwa [mk_data] at h
  show pyDollar matchRelease s.data = true ↔ _
  rw [pyDollar_iff, hrs, hr s.data.dropLast]

/-- C6: any input that does not end with the exact suffix `.tar.bz2` parses
to the Invalid sentinel; in particular `foo-3.2-4.tar.gz` does. -/
theorem claim6_non_suffix_invalid (s : String) (h : ¬ SUFFIX.data <:+ s.data) :
    cygpackage s = none ∧ cygpackage "foo-3.2-4.tar.gz" = none := by
  refine ⟨?_, by decide⟩
  have hE : pyEndsWith s SUFFIX = false := by
    unfold pyEndsWith
    rcases hb : SUFFIX.data.isSuffixOf s.data with _ | _
    · rfl
    · exact absurd (List.isSuffixOf_iff_suffix.mp hb) h
  simp only [cygpackage, hE]
  simp

theorem claim6_witness :
    (¬ SUFFIX.data <:+ ("foo-3.2-4.tar.gz" : String).data) ∧
    cygpackage "foo-3.2-4.tar.gz" = none ∧ cygpackage "foo-3.2-4.tar.gz" = none :=
  ⟨by decide, claim6_non_suffix_invalid "foo-3.2-4.tar.gz" (by decide)⟩

/-- C1: the Selector of a non-empty group keeps an identity whose
`version-release` key is (string-)lexicographically maximal and returns all
the other members as discarded; on the claim's example, version `"9"` beats
version `"10"`. -/
theorem claim1_selector (vs : List CygPackage) (hne : vs ≠ []) :
    (∃ kept ds, select vs = some (kept, ds) ∧ kept ∈ vs ∧
      (∀ q ∈ vs, keyLe q kept) ∧ vs.Perm (kept :: ds) ∧
      ((vs.Pairwise fun a b => pkgkey a ≠ pkgkey b) →
        ∀ q ∈ vs, q ≠ kept → strLt (pkgkey q) (pkgkey kept) = true)) ∧
    select [⟨"p", "9", "1"⟩, ⟨"p", "10", "1"⟩]
      = some (⟨"p", "9", "1"⟩, [⟨"p", "10", "1"⟩]) := by
  refine ⟨?_, by decide⟩
  have hperm := List.perm_insertionSort keyLe vs
  have hsort := List.sorted_insertionSort keyLe vs
  set s := List.insertionSort keyLe vs with hs
  have hsne : s ≠ [] := by
    intro h0
    have hlen := hperm.length_eq
    rw [h0] at hlen
    exact hne (List.length_eq_zero.mp hlen.symm)
  have hL : s.getLast? = some (s.getLast hsne) := List.getLast?_eq_getLast_of_ne_nil hsne
  have hkmem : s.getLast hsne ∈ vs := hperm.subset (List.getLast_mem hsne)
  have hmax : ∀ q ∈ vs, keyLe q (s.getLast hsne) := fun q hq =>
    rel_getLast_of_sorted hsort (hperm.mem_iff.mpr hq) (Option.mem_def.mpr hL)
  refine ⟨s.getLast hsne, s.dropLast, ?_, hkmem, hmax, ?_, ?_⟩
  · simp only [select, ← hs, hL]
  · have h2 : s.Perm (s.getLast hsne :: s.dropLast) := by
      conv_lhs => rw [← List.dropLast_append_getLast hsne]
      exact List.perm_append_singleton _ _
    exact hperm.symm.trans h2
  · intro hpw q hq hqne
    apply strLt_of_le_ne (hmax q hq)
    exact hpw.forall (fun _ _ hab => Ne.symm hab) hq hkmem hqne

theorem claim1_witness :
    (∃ kept ds,
      select [(⟨"p", "9", "1"⟩ : CygPackage), ⟨"p", "10", "1"⟩] = some (kept, ds) ∧
      kept ∈ [(⟨"p", "9", "1"⟩ : CygPackage), ⟨"p", "10", "1"⟩] ∧
      (∀ q ∈ [(⟨"p", "9", "1"⟩ : CygPackage), ⟨"p", "10", "1"⟩], keyLe q kept) ∧
      List.Perm [(⟨"p", "9", "1"⟩ : CygPackage), ⟨"p", "10", "1"⟩] (kept :: ds) ∧
      (([(⟨"p", "9", "1"⟩ : CygPackage), ⟨"p", "10", "1"⟩].Pairwise
          fun a b => pkgkey a ≠ pkgkey b) →
        ∀ q ∈ [(⟨"p", "9", "1"⟩ : CygPackage), ⟨"p", "10", "1"⟩], q ≠ kept →
          strLt (pkgkey q) (pkgkey kept) = true)) ∧
    select [⟨"p", "9", "1"⟩, ⟨"p", "10", "1"⟩]
      = some (⟨"p", "9", "1"⟩, [⟨"p", "10", "1"⟩]) :=
  claim1_selector [⟨"p", "9", "1"⟩, ⟨"p", "10", "1"⟩] (by decide)

/-- The guarded selection step on a one-element group keeps it and contributes
no removal-set entry. -/
theorem clean_cons_singleton (root : String) (p : CygPackage)
    (pks : List (List CygPackage)) : clean root ([p] :: pks) = clean root pks := by
  have hsel : select [p] = some (p, []) := rfl
  simp [clean, hsel]

theorem groupPackages_pair {p q : CygPackage} (h : p.package ≠ q.package) :
    groupPackages [p, q] = [[p], [q]] := by
  simp [groupPackages, h]

/-- C7: a directory listing with at most one valid package filename produces
no deletions at all. -/
theorem claim7_skip (root : String) (files : List String)
    (h : (files.filter fun f => ispackfile f).length ≤ 1) :
    pruneTrash root files = [] ∧ prune root files = [] := by
  have hpt : pruneTrash root files = [] := by
    unfold pruneTrash
    rcases hlen : (files.filter fun f => ispackfile f).length with _ | n
    · have hnil : files.filter (fun f => ispackfile f) = [] := List.length_eq_zero.mp hlen
      rw [hnil]
      simp [clean, groupPackages]
    · have h1 : (files.filter fun f => ispackfile f).length = 1 := by omega
      rw [if_pos h1]
  refine ⟨hpt, ?_⟩
  unfold prune
  rw [hpt]
  rfl

theorem claim7_witness :
    ((["foo-1.0-1.tar.bz2"].filter fun f => ispackfile f).length ≤ 1) ∧
    pruneTrash "/r" ["foo-1.0-1.tar.bz2"] = [] ∧ prune "/r" ["foo-1.0-1.tar.bz2"] = [] :=
  ⟨by decide, claim7_skip "/r" ["foo-1.0-1.tar.bz2"] (by decide)⟩

/-- C8: a name-group of size one contributes no entries to the removal set,
and a directory with exactly two valid package files of two different names
is left untouched. -/
theorem claim8_singleton_groups :
    (∀ p : CygPackage, select [p] = some (p, [])) ∧
    (∀ (root : String) (p : CygPackage) (pks : List (List CygPackage)),
      clean root ([p] :: pks) = clean root pks) ∧
    (∀ (root : String) (files : List String) (f1 f2 : String) (p1 p2 : CygPackage),
      files.filter (fun f => ispackfile f) = [f1, f2] →
      cygpackage f1 = some p1 → cygpackage f2 = some p2 →
      p1.package ≠ p2.package → prune root files = []) := by
  refine ⟨fun p => rfl, clean_cons_singleton, ?_⟩
  intro root files f1 f2 p1 p2 hfil h1 h2 hne
  unfold prune pruneTrash
  rw [hfil, if_neg (by simp)]
  have hfm : [f1, f2].filterMap cygpackage = [p1, p2] := by
    simp [List.filterMap_cons, h1, h2]
  rw [hfm]
  by_cases hle : nameLe p1 p2
  · have hsort : List.insertionSort nameLe [p1, p2] = [p1, p2] := by
      simp [List.insertionSort, List.orderedInsert, if_pos hle]
    rw [hsort, groupPackages_pair hne, clean_cons_singleton, clean_cons_singleton]
    rfl
  · have hsort : List.insertionSort nameLe [p1, p2] = [p2, p1] := by
      simp [List.insertionSort, List.orderedInsert, if_neg hle]
    rw [hsort, groupPackages_pair (Ne.symm hne), clean_cons_singleton,
      clean_cons_singleton]
    rfl

theorem claim8_witness :
    select [(⟨"a", "1", "1"⟩ : CygPackage)] = some (⟨"a", "1", "1"⟩, []) ∧
    clean "/r" ([(⟨"a", "1", "1"⟩ : CygPackage)] :: []) = clean "/r" [] ∧
    prune "/r" ["foo-1.0-1.tar.bz2", "bar-2.0-1.tar.bz2"] = [] :=
  ⟨claim8_singleton_groups.1 ⟨"a", "1", "1"⟩,
    claim8_singleton_groups.2.1 "/r" ⟨"a", "1", "1"⟩ [],
    claim8_singleton_groups.2.2 "/r" ["foo-1.0-1.tar.bz2", "bar-2.0-1.tar.bz2"]
      "foo-1.0-1.tar.bz2" "bar-2.0-1.tar.bz2" ⟨"foo", "1.0", "1"⟩ ⟨"bar", "2.0", "1"⟩
      (by decide) (by decide) (by decide) (by decide)⟩

/-! Structural lemmas about grouping, selection and the removal set. -/

theorem groupPackages_flatten : ∀ l : List CygPackage, (groupPackages l).flatten = l
  | [] => rfl
  | p :: ps => by
    have ih := groupPackages_flatten ps
    rcases hg : groupPackages ps with _ | ⟨g0, gs⟩
    · rw [hg] at ih
      simp only [groupPackages, hg]
      simp only [List.flatten_nil] at ih
      simp [← ih]
    · rcases g0 with _ | ⟨q, qs⟩
      · rw [hg] at ih
        simp only [groupPackages, hg]
        simp only [List.flatten_cons] at ih ⊢
        simp [ih]
      · rw [hg] at ih
        simp only [groupPackages, hg]
        by_cases hpq : p.package = q.package
        · rw [if_pos hpq]
          simp only [List.flatten_cons] at ih ⊢
          simp [ih]
        · rw [if_neg hpq]
          simp only [List.flatten_cons] at ih ⊢
          simp [ih]

theorem select_some_facts {vs : List CygPackage} {p : CygPackage}
    {ds : List CygPackage} (h : select vs = some (p, ds)) :
    p ∈ vs ∧ (∀ d ∈ ds, d ∈ vs) ∧ (vs.Nodup → p ∉ ds) := by
  have hperm := List.perm_insertionSort keyLe vs
  set s := List.insertionSort keyLe vs with hs
  simp only [select, ← hs] at h
  rcases hL : s.getLast? with _ | q
  · rw [hL] at h; simp at h
  · rw [hL] at h
    simp only [Option.some.injEq, Prod.mk.injEq] at h
    obtain ⟨hq, hds⟩ := h
    subst hq
    have hrecon : s.dropLast ++ [q] = s :=
      List.dropLast_append_getLast? q (Option.mem_def.mpr hL)
    refine ⟨?_, ?_, ?_⟩
    · apply hperm.subset
      rw [← hrecon]
      exact List.mem_append_right _ (List.mem_singleton_self q)
    · intro d hd
      apply hperm.subset
      rw [← hds] at hd
      exact (List.dropLast_sublist s).subset hd
    · intro hnd hpds
      have hsnd : s.Nodup := hperm.nodup_iff.mpr hnd
      rw [← hrecon] at hsnd
      have hdisj := (List.nodup_append.mp hsnd).2.2
      rw [← hds] at hpds
      exact hdisj hpds (List.mem_singleton_self q)

theorem clean_mem_elim {root : String} {pks : List (List CygPackage)}
    {e : CygPackage × List String} (h : e ∈ clean root pks) :
    ∃ vs ∈ pks, ∃ ds, select vs = some (e.1, ds) ∧ ds ≠ [] ∧
      e.2 = ds.map fun v => posixJoin root (packname (some v)) := by
  unfold clean at h
  obtain ⟨vs, hvs, hf⟩ := List.mem_filterMap.mp h
  rcases hsel : select vs with _ | ⟨p, ds⟩
  · rw [hsel] at hf; simp at hf
  · simp only [hsel] at hf
    by_cases hds : ds = []
    · rw [if_pos hds] at hf
      exact absurd hf (by simp)
    · rw [if_neg hds] at hf
      have he : (p, ds.map fun v => posixJoin root (packname (some v))) = e := by
        simpa using hf
      refine ⟨vs, hvs, ds, ?_, hds, ?_⟩
      · rw [← he]; exact hsel
      · rw [← he]

theorem pruneTrash_mem_elim {root : String} {files : List String}
    {e : CygPackage × List String} (h : e ∈ pruneTrash root files) :
    ∃ vs ∈ groupPackages (List.insertionSort nameLe
        ((files.filter fun f => ispackfile f).filterMap cygpackage)),
      ∃ ds, select vs = some (e.1, ds) ∧ ds ≠ [] ∧
        e.2 = ds.map fun v => posixJoin root (packname (some v)) := by
  unfold pruneTrash at h
  by_cases hl : (files.filter fun f => ispackfile f).length = 1
  · rw [if_pos hl] at h
    exact absurd h (List.not_mem_nil e)
  · rw [if_neg hl] at h
    exact clean_mem_elim h

theorem prune_mem_elim {root : String} {files : List String} {q : String}
    (h : q ∈ prune root files) : ∃ e ∈ pruneTrash root files, q ∈ e.2 := by
  unfold prune at h
  obtain ⟨l, hl, hql⟩ := List.mem_flatten.mp h
  obtain ⟨e, he, hel⟩ := List.mem_map.mp hl
  exact ⟨e, he, hel ▸ hql⟩

theorem packages_mem_elim {files : List String} {q : CygPackage}
    (h : q ∈ (files.filter fun f => ispackfile f).filterMap cygpackage) :
    ∃ f ∈ files, cygpackage f = some q := by
  obtain ⟨f, hf, hfq⟩ := List.mem_filterMap.mp h
  exact ⟨f, (List.mem_filter.mp hf).1, hfq⟩

theorem packages_nodup {files : List String} (h : files.Nodup) :
    ((files.filter fun f => ispackfile f).filterMap cygpackage).Nodup := by
  refine (h.filter _).filterMap ?_
  intro a a' b hb hb'
  have ha := packname_of_cygpackage (Option.mem_def.mp hb)
  have ha' := packname_of_cygpackage (Option.mem_def.mp hb')
  rw [← ha, ← ha']

theorem posixJoin_inj {root x y : String} (hx : ('/' : Char) ∉ x.data)
    (hy : ('/' : Char) ∉ y.data) (h : posixJoin root x = posixJoin root y) :
    x = y := by
  have hhx : ¬ x.data.head? = some '/' := fun hh =>
    hx (List.mem_of_mem_head? (Option.mem_def.mpr hh))
  have hhy : ¬ y.data.head? = some '/' := fun hh =>
    hy (List.mem_of_mem_head? (Option.mem_def.mpr hh))
  unfold posixJoin at h
  rw [if_neg hhx, if_neg hhy] at h
  have hcancel : ∀ A : String, A ++ x = A ++ y → x = y := by
    intro A hA
    apply String.ext
    have hdata := congrArg String.data hA
    simp only [String.data_append] at hdata
    exact List.append_cancel_left hdata
  by_cases hroot : root = ""
  · rw [if_pos hroot, if_pos hroot] at h
    exact h
  · rw [if_neg hroot, if_neg hroot] at h
    by_cases hslash : root.data.getLast? = some '/'
    · rw [if_pos hslash, if_pos hslash] at h
      exact hcancel root h
    · rw [if_neg hslash, if_neg hslash] at h
      exact hcancel (root ++ "/") h

theorem flatten_nodup_group_eq {α : Type} {L : List (List α)}
    (hnd : L.flatten.Nodup) {g1 g2 : List α} {x : α} (h1 : g1 ∈ L) (h2 : g2 ∈ L)
    (hx1 : x ∈ g1) (hx2 : x ∈ g2) : g1 = g2 := by
  by_contra hne
  have hpair := (List.nodup_flatten.mp hnd).2
  have hdisj := hpair.forall (fun _ _ hab => List.Disjoint.symm hab) h1 h2 hne
  exact hdisj hx1 hx2

/-- C10: a filename that parses to a valid identity reconstructs to itself
through the canonical filename, and every removal path is the directory root
joined with a filename present in the directory listing. -/
theorem claim10_roundtrip_paths :
    (∀ (f : String) (p : CygPackage), cygpackage f = some p → packname (some p) = f) ∧
    (∀ (root : String) (files : List String) (q : String), q ∈ prune root files →
      ∃ f ∈ files, q = posixJoin root f) := by
  refine ⟨fun _ _ h => packname_of_cygpackage h, ?_⟩
  intro root files q hq
  obtain ⟨e, he, hqe⟩ := prune_mem_elim hq
  obtain ⟨vs, hvs, ds, hsel, _, he2⟩ := pruneTrash_mem_elim he
  rw [he2] at hqe
  obtain ⟨v, hv, hqv⟩ := List.mem_map.mp hqe
  have hvvs : v ∈ vs := (select_some_facts hsel).2.1 v hv
  have hvsorted : v ∈ List.insertionSort nameLe
      ((files.filter fun f => ispackfile f).filterMap cygpackage) := by
    rw [← groupPackages_flatten (List.insertionSort nameLe
      ((files.filter fun f => ispackfile f).filterMap cygpackage))]
    exact List.mem_flatten_of_mem hvs hvvs
  have hvpkgs : v ∈ (files.filter fun f => ispackfile f).filterMap cygpackage :=
    (List.perm_insertionSort nameLe _).subset hvsorted
  obtain ⟨f, hffiles, hfv⟩ := packages_mem_elim hvpkgs
  exact ⟨f, hffiles, by rw [← hqv, packname_of_cygpackage hfv]⟩

theorem claim10_witness :
    packname (some ⟨"libstdc++6", "4.5.3", "3"⟩) = "libstdc++6-4.5.3-3.tar.bz2" ∧
    (∃ f ∈ ["libstdc++6-4.5.3-3.tar.bz2", "libstdc++6-4.5.2-1.tar.bz2"],
      "/r/libstdc++6-4.5.2-1.tar.bz2" = posixJoin "/r" f) :=
  ⟨claim10_roundtrip_paths.1 "libstdc++6-4.5.3-3.tar.bz2"
      ⟨"libstdc++6", "4.5.3", "3"⟩ (by decide),
    claim10_roundtrip_paths.2 "/r"
      ["libstdc++6-4.5.3-3.tar.bz2", "libstdc++6-4.5.2-1.tar.bz2"]
      "/r/libstdc++6-4.5.2-1.tar.bz2" (by decide)⟩

/-- C9: for a duplicate-free directory listing of slash-free filenames, the
path of a kept (maximal) identity of any name-group is never among the
deleted paths. -/
theorem claim9_kept_not_deleted (root : String) (files : List String)
    (hnd : files.Nodup) (hsl : ∀ f ∈ files, ('/' : Char) ∉ f.data) :
    ∀ p paths, (p, paths) ∈ pruneTrash root files →
      posixJoin root (packname (some p)) ∉ prune root files := by
  intro p paths hmem htgt
  obtain ⟨vsi, hvsi, dsi, hseli, _, _⟩ := pruneTrash_mem_elim hmem
  obtain ⟨e, he, hqe⟩ := prune_mem_elim htgt
  obtain ⟨vsj, hvsj, dsj, hselj, _, he2⟩ := pruneTrash_mem_elim he
  rw [he2] at hqe
  obtain ⟨d, hd, hqd⟩ := List.mem_map.mp hqe
  have hdvs : d ∈ vsj := (select_some_facts hselj).2.1 d hd
  have hpvs : p ∈ vsi := (select_some_facts hseli).1
  have hmemsorted : ∀ {v : CygPackage} {vs : List CygPackage},
      vs ∈ groupPackages (List.insertionSort nameLe
        ((files.filter fun f => ispackfile f).filterMap cygpackage)) → v ∈ vs →
      v ∈ List.insertionSort nameLe
        ((files.filter fun f => ispackfile f).filterMap cygpackage) := by
    intro v vs hvs hv
    rw [← groupPackages_flatten (List.insertionSort nameLe
      ((files.filter fun f => ispackfile f).filterMap cygpackage))]
    exact List.mem_flatten_of_mem hvs hv
  have hfile : ∀ {v : CygPackage}, v ∈ List.insertionSort nameLe
      ((files.filter fun f => ispackfile f).filterMap cygpackage) →
      ∃ f ∈ files, cygpackage f = some v := by
    intro v hv
    exact packages_mem_elim ((List.perm_insertionSort nameLe _).subset hv)
  obtain ⟨fp, hfpmem, hfp⟩ := hfile (hmemsorted hvsi hpvs)
  obtain ⟨fd, hfdmem, hfd⟩ := hfile (hmemsorted hvsj hdvs)
  have hpn : packname (some p) = fp := packname_of_cygpackage hfp
  have hdn : packname (some d) = fd := packname_of_cygpackage hfd
  have hfpfd : fp = fd := by
    refine @posixJoin_inj root fp fd ?_ ?_ ?_
    · exact hsl fp hfpmem
    · exact hsl fd hfdmem
    · rw [← hpn, ← hdn]
      exact hqd.symm
  have hpd : p = d := by
    have hsome : some p = some d := by rw [← hfp, ← hfd, hfpfd]
    exact Option.some_inj.mp hsome
  have hndsorted : (List.insertionSort nameLe
      ((files.filter fun f => ispackfile f).filterMap cygpackage)).Nodup :=
    (List.perm_insertionSort nameLe _).nodup_iff.mpr (packages_nodup hnd)
  have hndflat : ((groupPackages (List.insertionSort nameLe
      ((files.filter fun f => ispackfile f).filterMap cygpackage))).flatten).Nodup := by
    rw [groupPackages_flatten]
    exact hndsorted
  have hgeq : vsi = vsj :=
    flatten_nodup_group_eq hndflat hvsi hvsj hpvs (hpd ▸ hdvs)
  rw [← hgeq, hseli] at hselj
  have hdsj : dsj = dsi := by
    have := Option.some_inj.mp hselj
    exact (Prod.mk.injEq .. ▸ this).2.symm
  have hvsind : vsi.Nodup := (List.nodup_flatten.mp hndflat).1 vsi hvsi
  have hnpds : p ∉ dsi := (select_some_facts hseli).2.2 hvsind
  apply hnpds
  rw [hdsj, ← hpd] at hd
  exact hd

theorem claim9_witness :
    posixJoin "/r" (packname (some ⟨"libstdc++6", "4.5.3", "3"⟩)) ∉
      prune "/r" ["libstdc++6-4.5.3-3.tar.bz2", "libstdc++6-4.5.2-1.tar.bz2"] :=
  claim9_kept_not_deleted "/r"
    ["libstdc++6-4.5.3-3.tar.bz2", "libstdc++6-4.5.2-1.tar.bz2"]
    (by decide) (by decide) ⟨"libstdc++6", "4.5.3", "3"⟩
    ["/r/libstdc++6-4.5.2-1.tar.bz2"] (by decide)

end AptCyg
